import Mathlib

/-!
# gfc: envelope machinery of `gfclib`

A shallow embedding of `gfclib/gcm.go`, `gfclib/ctr.go` and `gfclib/rsa.go`.

* A Go `[]byte` / `*bytes.Buffer` is a `List (BitVec 8)` (for a buffer: its unread bytes).
* A Go `panic` is `Except.error` carrying the kind of panic; a returned buffer is `Except.ok`.
* The Go standard library (`crypto/aes`, `crypto/cipher`, `crypto/rsa`, `crypto/x509`,
  `encoding/pem`) is not part of the repository: its pure functions are the fields of
  `Primitives`, and the documented argument checks of its entry points are modelled around them.
* `crypto/rand` is an explicit stream of bytes that is threaded through the calls.
* `lenSalt` is a constant of the package whose declaration is not in the given sources; it is a
  parameter of every definition that uses it.
-/

namespace Gfc

abbrev Byte := BitVec 8

abbrev Bytes := List Byte

/-- The ways in which a call into `gfclib` can abort (every one is a Go `panic`). -/
inductive Failure where
  /-- Runtime error: slice bounds out of range. -/
  | sliceBounds
  /-- Runtime error: invalid memory address or nil pointer dereference. -/
  | nilDereference
  /-- Runtime error: interface conversion (failed type assertion). -/
  | typeAssertion
  /-- Error of `aes.NewCipher`: invalid key size. -/
  | keySize
  /-- Error of `cipher.NewGCM`: the block cipher has not a 128-bit block. -/
  | gcmBlockSize
  /-- Panic of `Seal` / `Open`: incorrect nonce length given to GCM. -/
  | nonceLength
  /-- Panic of `cipher.NewCTR`: IV length must equal block size. -/
  | ivLength
  /-- Error of `gcm.Open`: message authentication failed. -/
  | authentication
  /-- "Failed to parse public key" / "Failed to parse private key", then `panic(err)`. -/
  | keyParse
  /-- "Failed to encrypt string", then `panic(err)`. -/
  | encryptFailed
  /-- "Failed to decrypt string", then `panic(err)`. -/
  | decryptFailed
  deriving DecidableEq, Repr

/-- An RSA public key as `crypto/rsa` holds it: modulus and public exponent. -/
structure RSAPublicKey where
  N : Nat
  E : Nat
  deriving DecidableEq, Repr

/-- An RSA private key as `crypto/rsa` holds it. -/
structure RSAPrivateKey where
  pub : RSAPublicKey
  D : Nat
  deriving DecidableEq, Repr

/-- What `x509.ParsePKIXPublicKey` returns behind its `interface{}`: an RSA key, or a key of
another algorithm (DSA, ECDSA, Ed25519, ...). -/
inductive PKIXKey where
  | rsa (k : RSAPublicKey)
  | other
  deriving DecidableEq, Repr

/-- The pure functions of the Go standard library (and the key-derivation function inside
`getKeySalt`) that `gfclib` calls. -/
structure Primitives where
  /-- The key-derivation function applied by `getKeySalt` to the key material and the salt. -/
  kdf : Bytes → Bytes → Bytes
  /-- AES-GCM sealing of a plaintext under a key and a 12-byte nonce, no associated data. -/
  gcmSeal : Bytes → Bytes → Bytes → Bytes
  /-- AES-GCM opening under a key and a 12-byte nonce; `none` when authentication fails. -/
  gcmOpen : Bytes → Bytes → Bytes → Option Bytes
  /-- The AES-CTR keystream of a key and an IV, byte by byte. -/
  ctrKeystream : Bytes → Bytes → Nat → Byte
  /-- The body of the first PEM block found by `pem.Decode`; `none` when there is no block. -/
  pemDecode : Bytes → Option Bytes
  /-- The function `x509.ParsePKIXPublicKey`; `none` when it returns an error. -/
  parsePKIXPublicKey : Bytes → Option PKIXKey
  /-- The function `x509.ParsePKCS1PrivateKey`; `none` when it returns an error. -/
  parsePKCS1PrivateKey : Bytes → Option RSAPrivateKey
  /-- The function `rsa.EncryptOAEP` with SHA-512 and no label, on the random bytes it draws. -/
  encryptOAEP : RSAPublicKey → Bytes → Bytes → Option Bytes
  /-- The function `rsa.DecryptOAEP` with SHA-512 and no label. -/
  decryptOAEP : RSAPrivateKey → Bytes → Option Bytes

/-- The system randomness source `crypto/rand`: the bytes it will hand out, in order. -/
abbrev Rand := Nat → Byte

/-- The call `rand.Read(b)` on a buffer `b` of `n` bytes: the bytes placed in `b` and the
source afterwards. -/
def randRead (g : Rand) (n : Nat) : Bytes × Rand :=
  ((List.range n).map g, fun i => g (n + i))

/-- The constant `lenNonce` of `gcm.go`: a 96-bit nonce. -/
def lenNonce : Nat := 12

/-- The size of the GCM authentication tag that `Seal` appends. -/
def gcmTagSize : Nat := 16

/-- The Go slice expression `data[lo:hi]` on a slice `data`: a runtime panic unless
`0 ≤ lo ≤ hi ≤ len(data)`. (In `gfclib` every upper index is at most `len(data)`.) -/
def sliceExpr (data : Bytes) (lo hi : Int) : Except Failure Bytes :=
  if 0 ≤ lo ∧ lo ≤ hi ∧ hi ≤ (data.length : Int) then
    .ok ((data.drop lo.toNat).take (hi.toNat - lo.toNat))
  else
    .error .sliceBounds

/-- Modelled from the spec: `getKeySalt` is called by `gcm.go` and `ctr.go` but is declared in a
file that is not among the sources. Spec 4.1: when the salt is absent, `SALT_LEN` random bytes
are generated; the key is a deterministic function of the key material and the salt; the salt
used is returned with the key. -/
def getKeySalt (L : Primitives) (lenSalt : Nat) (g : Rand) (aesKey : Bytes)
    (salt : Option Bytes) : (Bytes × Bytes) × Rand :=
  match salt with
  | some s => ((L.kdf aesKey s, s), g)
  | none =>
    let r := randRead g lenSalt
    ((L.kdf aesKey r.1, r.1), r.2)

/-- An AES block cipher (`cipher.Block`) made by `aes.NewCipher`. -/
structure AESBlock where
  key : Bytes
  deriving DecidableEq, Repr

/-- The method `BlockSize` of an AES block cipher. -/
def AESBlock.BlockSize (_b : AESBlock) : Nat := 16

/-- The function `aes.NewCipher`: an error unless the key has 16, 24 or 32 bytes. The callers
panic on the error. -/
def aesNewCipher (key : Bytes) : Except Failure AESBlock :=
  if key.length = 16 ∨ key.length = 24 ∨ key.length = 32 then .ok ⟨key⟩ else .error .keySize

/-- The function `cipher.NewGCM`: an error unless the cipher has a 128-bit block. The callers
panic on the error. -/
def cipherNewGCM (block : AESBlock) : Except Failure AESBlock :=
  if block.BlockSize = 16 then .ok block else .error .gcmBlockSize

/-- The call `gcm.Seal(nil, nonce, plaintext, nil)`: panics on a nonce of the wrong length. -/
def gcmSealCall (L : Primitives) (gcm : AESBlock) (nonce plaintext : Bytes) :
    Except Failure Bytes :=
  if nonce.length = lenNonce then .ok (L.gcmSeal gcm.key nonce plaintext)
  else .error .nonceLength

/-- The call `gcm.Open(nil, nonce, data, nil)` followed by `panic(err)` on an error. -/
def gcmOpenCall (L : Primitives) (gcm : AESBlock) (nonce data : Bytes) :
    Except Failure Bytes :=
  if nonce.length = lenNonce then
    match L.gcmOpen gcm.key nonce data with
    | some plaintext => .ok plaintext
    | none => .error .authentication
  else .error .nonceLength

/-- The function `GCM_encrypt` of `gcm.go`. -/
def GCM_encrypt (L : Primitives) (lenSalt : Nat) (g : Rand) (rbuf aesKey : Bytes) :
    Except Failure Bytes := do
  let ks := getKeySalt L lenSalt g aesKey none
  let key := ks.1.1
  let salt := ks.1.2
  let block ← aesNewCipher key
  let gcm ← cipherNewGCM block
  let nonce := (randRead ks.2 lenNonce).1
  let sealed ← gcmSealCall L gcm nonce rbuf
  let obuf : Bytes := []
  let obuf := obuf ++ sealed
  let obuf := obuf ++ (nonce ++ salt)
  return obuf

/-- The function `GCM_decrypt` of `gcm.go`. -/
def GCM_decrypt (L : Primitives) (lenSalt : Nat) (g : Rand) (rbuf aesKey : Bytes) :
    Except Failure Bytes := do
  let data := rbuf
  let lenData : Int := data.length
  let salt ← sliceExpr data (lenData - lenSalt) lenData
  let key := (getKeySalt L lenSalt g aesKey (some salt)).1.1
  let nonce ← sliceExpr data (lenData - lenNonce - lenSalt) (lenData - lenSalt)
  let data ← sliceExpr data 0 (lenData - lenNonce - lenSalt)
  let block ← aesNewCipher key
  let gcm ← cipherNewGCM block
  let plaintext ← gcmOpenCall L gcm nonce data
  return plaintext

/-- The stream returned by `cipher.NewCTR(block, iv)`: its keystream and how many keystream
bytes have been used so far. -/
structure CTRStream where
  keystream : Nat → Byte
  pos : Nat

/-- The function `cipher.NewCTR`: panics unless the IV is as long as the cipher's block. -/
def cipherNewCTR (L : Primitives) (block : AESBlock) (iv : Bytes) : Except Failure CTRStream :=
  if iv.length = block.BlockSize then .ok ⟨L.ctrKeystream block.key iv, 0⟩
  else .error .ivLength

/-- The bytes `src` XORed with the keystream `ks` from position `pos` on. -/
def xorFrom (ks : Nat → Byte) (pos : Nat) : Bytes → Bytes
  | [] => []
  | b :: bs => (b ^^^ ks pos) :: xorFrom ks (pos + 1) bs

/-- The method `XORKeyStream(dst, src)` of a CTR stream: the bytes written to `dst[:len(src)]`
and the stream afterwards. -/
def CTRStream.XORKeyStream (s : CTRStream) (src : Bytes) : Bytes × CTRStream :=
  (xorFrom s.keystream s.pos src, ⟨s.keystream, s.pos + src.length⟩)

/-- The outcome of `rbuf.Read(buf)`: the bytes copied to `buf[:n]` (so `n` is their number),
whether `err` is `io.EOF`, and the unread bytes left in `rbuf`. -/
structure ReadResult where
  data : Bytes
  eof : Bool
  rest : Bytes

/-- The method `Read(p)` of `bytes.Buffer` for a `p` of `lenP > 0` bytes: `0, io.EOF` on an
empty buffer, else the copy of up to `lenP` unread bytes and a nil error. -/
def bufferRead (rbuf : Bytes) (lenP : Nat) : ReadResult :=
  match rbuf with
  | [] => ⟨[], true, []⟩
  | _ :: _ => ⟨rbuf.take lenP, false, rbuf.drop lenP⟩

/-- The `for` loop of `CTR_encrypt` over the 1024-byte buffer `buf`; `obuf` is what has been
written so far. The loop leaves only through `break` on `io.EOF` (the method `Read` of
`bytes.Buffer` returns no other error). -/
def ctrEncryptLoop (stream : CTRStream) (rbuf obuf : Bytes) : Bytes :=
  let r := bufferRead rbuf 1024
  let n := r.data.length
  let x := if n > 0 then stream.XORKeyStream (r.data.take n) else ([], stream)
  let obuf := if n > 0 then obuf ++ x.1 else obuf
  if h : r.eof = true then obuf
  else ctrEncryptLoop x.2 r.rest obuf
termination_by rbuf.length
decreasing_by
  cases rbuf with
  | nil => exact absurd rfl h
  | cons b bs => simp [bufferRead]; omega

/-- The function `CTR_encrypt` of `ctr.go`. -/
def CTR_encrypt (L : Primitives) (lenSalt : Nat) (g : Rand) (rbuf aesKey : Bytes) :
    Except Failure Bytes := do
  let ks := getKeySalt L lenSalt g aesKey none
  let key := ks.1.1
  let salt := ks.1.2
  let block ← aesNewCipher key
  let iv := (randRead ks.2 block.BlockSize).1
  let stream ← cipherNewCTR L block iv
  let obuf := ctrEncryptLoop stream rbuf []
  let obuf := obuf ++ (iv ++ salt)
  return obuf

/-- The `for` loop of `CTR_decrypt` over the 1024-byte buffer `buf`: `lenMsg` is the number of
message bytes still to transform, `obuf` what has been written so far. `buf[:n]` is a slice
expression and panics on a negative `n`. -/
def ctrDecryptLoop (stream : CTRStream) (lenMsg : Int) (rbuf obuf : Bytes) :
    Except Failure Bytes :=
  let r := bufferRead rbuf 1024
  let n : Int := r.data.length
  if n > 0 then
    let n := if n > lenMsg then lenMsg else n
    let lenMsg := lenMsg - n
    match sliceExpr r.data 0 n with
    | .error e => .error e
    | .ok src =>
      let x := stream.XORKeyStream src
      let obuf := obuf ++ x.1
      if h : r.eof = true then .ok obuf
      else ctrDecryptLoop x.2 lenMsg r.rest obuf
  else
    if h : r.eof = true then .ok obuf
    else ctrDecryptLoop stream lenMsg r.rest obuf
termination_by rbuf.length
decreasing_by
  all_goals
    cases rbuf with
    | nil => exact absurd rfl h
    | cons b bs => simp [bufferRead]; omega

/-- The function `CTR_decrypt` of `ctr.go`. The call `rbuf.Bytes()` does not consume the
buffer, so the loop reads the whole envelope again. -/
def CTR_decrypt (L : Primitives) (lenSalt : Nat) (g : Rand) (rbuf aesKey : Bytes) :
    Except Failure Bytes := do
  let data := rbuf
  let lenData : Int := data.length
  let salt ← sliceExpr data (lenData - lenSalt) lenData
  let key := (getKeySalt L lenSalt g aesKey (some salt)).1.1
  let block ← aesNewCipher key
  let lenIV : Int := block.BlockSize
  let iv ← sliceExpr data (lenData - lenIV - lenSalt) (lenData - lenSalt)
  let lenMsg := lenData - lenIV - lenSalt
  let stream ← cipherNewCTR L block iv
  ctrDecryptLoop stream lenMsg rbuf []

/-- The size of a SHA-512 digest, the hash held by the package variable `hash` of `rsa.go`. -/
def hashLen : Nat := 64

/-- The function `RSA_encrypt` of `rsa.go`. The second result of `pem.Decode` is dropped and the
block is used unchecked, so `block.Bytes` dereferences a nil pointer when no PEM block was
found; the type assertion `pubInterface.(*rsa.PublicKey)` has no `ok` result. -/
def RSA_encrypt (L : Primitives) (g : Rand) (plaintext pubKey : Bytes) : Except Failure Bytes :=
  match L.pemDecode pubKey with
  | none => .error .nilDereference
  | some blockBytes =>
    match L.parsePKIXPublicKey blockBytes with
    | none => .error .keyParse
    | some pubInterface =>
      match pubInterface with
      | .other => .error .typeAssertion
      | .rsa pub =>
        match L.encryptOAEP pub (randRead g hashLen).1 plaintext with
        | none => .error .encryptFailed
        | some ciphertext => .ok ciphertext

/-- The function `RSA_decrypt` of `rsa.go`. -/
def RSA_decrypt (L : Primitives) (ciphertext priKey : Bytes) : Except Failure Bytes :=
  match L.pemDecode priKey with
  | none => .error .nilDereference
  | some blockBytes =>
    match L.parsePKCS1PrivateKey blockBytes with
    | none => .error .keyParse
    | some pri =>
      match L.decryptOAEP pri ciphertext with
      | none => .error .decryptFailed
      | some plaintext => .ok plaintext

/-- The method `Size` of an RSA public key: the length of the modulus in bytes, from its
length in bits. -/
def RSAPublicKey.Size (pub : RSAPublicKey) : Nat := (pub.N.size + 7) / 8

/-- The salt of an envelope as spec 4.2 and 4.3 place it: `envelope[-SALT_LEN:]`. -/
def envelopeSalt (lenSalt : Nat) (envelope : Bytes) : Bytes :=
  envelope.drop (envelope.length - lenSalt)

/-- The nonce or IV of `lenTail` bytes as spec 4.2 and 4.3 place it:
`envelope[-SALT_LEN-lenTail:-SALT_LEN]`. -/
def envelopeNonce (lenSalt lenTail : Nat) (envelope : Bytes) : Bytes :=
  (envelope.drop (envelope.length - lenSalt - lenTail)).take lenTail

/-- The ciphertext of an envelope as spec 4.2 and 4.3 place it: `envelope[:-SALT_LEN-lenTail]`. -/
def envelopeBody (lenSalt lenTail : Nat) (envelope : Bytes) : Bytes :=
  envelope.take (envelope.length - lenSalt - lenTail)

/-- The one-shot stream transform of spec 4.3: `data` XORed byte for byte with the first
`len(data)` bytes of the keystream of `(key, iv)`. -/
def xorKeystreamOneShot (L : Primitives) (key iv data : Bytes) : Bytes :=
  (List.range data.length).zipWith (fun i b => b ^^^ L.ctrKeystream key iv i) data

/-- Bit `i` of a byte string, counting eight bits to the byte from the first byte on
(false beyond the end). -/
def testBitAt : Bytes → Nat → Bool
  | [], _ => false
  | b :: bs, i => if i < 8 then b.getLsbD i else testBitAt bs (i - 8)

/-- The byte string with bit `i` flipped (unchanged when `i` is beyond the end). -/
def flipBit (i : Nat) : Bytes → Bytes
  | [] => []
  | b :: bs => if i < 8 then (b ^^^ BitVec.ofNat 8 (2 ^ i)) :: bs else b :: flipBit (i - 8) bs

/-- The salt that `getKeySalt` draws from the randomness source `g` during an encryption. -/
def drawnSalt (g : Rand) (lenSalt : Nat) : Bytes := (randRead g lenSalt).1

/-- The nonce or IV of `lenTail` bytes that an encryption draws from `g` after the salt. -/
def drawnNonce (g : Rand) (lenSalt lenTail : Nat) : Bytes :=
  (randRead (randRead g lenSalt).2 lenTail).1

/-- The bytes of an ASCII string. -/
def asciiBytes (s : String) : Bytes :=
  s.toList.map (fun c => BitVec.ofNat 8 c.toNat)

instance instDecidableEqExcept {ε α : Type} [DecidableEq ε] [DecidableEq α] :
    DecidableEq (Except ε α) := fun x y =>
  match x, y with
  | .ok a, .ok b =>
    if h : a = b then isTrue (by rw [h]) else isFalse (fun e => h (Except.ok.inj e))
  | .error a, .error b =>
    if h : a = b then isTrue (by rw [h]) else isFalse (fun e => h (Except.error.inj e))
  | .ok _, .error _ => isFalse (fun e => Except.noConfusion e)
  | .error _, .ok _ => isFalse (fun e => Except.noConfusion e)

/-! ## A small instance of the primitives

Used to run the definitions on concrete inputs. It has the shape of the real primitives (a
32-byte key, a 16-byte tag that depends on key, nonce and plaintext, a keystream that depends on
key and IV, PEM armour that starts with a dash) and none of their strength. -/

def toyKdf (passphrase salt : Bytes) : Bytes :=
  (List.range 32).map (fun i => (passphrase ++ salt).foldl (· ^^^ ·) (BitVec.ofNat 8 i))

def toyKeystream (key iv : Bytes) (i : Nat) : Byte :=
  key.getD (i % 32) 0 ^^^ iv.getD (i % 12) 0 ^^^ BitVec.ofNat 8 i

def toyTag (key nonce plaintext : Bytes) : Bytes :=
  (List.range 16).map
    (fun i => (key ++ nonce ++ plaintext).foldl (fun a b => a * 3 + b) (BitVec.ofNat 8 i))

def toySeal (key nonce plaintext : Bytes) : Bytes :=
  xorFrom (toyKeystream key nonce) 0 plaintext ++ toyTag key nonce plaintext

def toyOpen (key nonce data : Bytes) : Option Bytes :=
  if 16 ≤ data.length then
    let plaintext := xorFrom (toyKeystream key nonce) 0 (data.take (data.length - 16))
    if toyTag key nonce plaintext = data.drop (data.length - 16) then some plaintext else none
  else none

def toyPemDecode (data : Bytes) : Option Bytes :=
  match data with
  | b :: rest => if b = 0x2D then some rest else none
  | [] => none

/-- A number of 2048 bits in the place of a modulus. -/
def toyModulus : Nat := 2 ^ 2047

def toyParsePKIX (der : Bytes) : Option PKIXKey :=
  match der with
  | [t, e] => if t = 0x30 then some (.rsa ⟨toyModulus, e.toNat⟩)
    else if t = 0x31 then some .other else none
  | _ => none

def toyParsePKCS1 (der : Bytes) : Option RSAPrivateKey :=
  match der with
  | [t, e, d] => if t = 0x30 then some ⟨⟨toyModulus, e.toNat⟩, d.toNat⟩ else none
  | _ => none

def toyEncryptOAEP (pub : RSAPublicKey) (_seed msg : Bytes) : Option Bytes :=
  if msg.length + 2 * hashLen + 2 ≤ pub.Size then
    some (msg.map (· ^^^ BitVec.ofNat 8 pub.E))
  else none

def toyDecryptOAEP (pri : RSAPrivateKey) (data : Bytes) : Option Bytes :=
  some (data.map (· ^^^ BitVec.ofNat 8 pri.D))

def toy : Primitives where
  kdf := toyKdf
  gcmSeal := toySeal
  gcmOpen := toyOpen
  ctrKeystream := toyKeystream
  pemDecode := toyPemDecode
  parsePKIXPublicKey := toyParsePKIX
  parsePKCS1PrivateKey := toyParsePKCS1
  encryptOAEP := toyEncryptOAEP
  decryptOAEP := toyDecryptOAEP

/-- A randomness source for the concrete runs. -/
def toyRand : Rand := fun i => BitVec.ofNat 8 (7 * i + 3)

/-! ## Slices -/

theorem sliceExpr_of_le (data : Bytes) (lo hi : Nat) (h1 : lo ≤ hi) (h2 : hi ≤ data.length) :
    sliceExpr data (lo : Int) (hi : Int) = .ok ((data.drop lo).take (hi - lo)) := by
  unfold sliceExpr
  rw [if_pos ⟨by omega, by omega, by omega⟩]
  simp

theorem sliceExpr_of_neg (data : Bytes) (lo hi : Int) (h : lo < 0) :
    sliceExpr data lo hi = .error .sliceBounds := by
  unfold sliceExpr
  rw [if_neg (by omega)]

/-! ## The keystream -/

theorem xorFrom_length (ks : Nat → Byte) (pos : Nat) (bs : Bytes) :
    (xorFrom ks pos bs).length = bs.length := by
  induction bs generalizing pos with
  | nil => rfl
  | cons b bs ih => simp [xorFrom, ih]

theorem xorFrom_append (ks : Nat → Byte) (pos : Nat) (xs ys : Bytes) :
    xorFrom ks pos (xs ++ ys) = xorFrom ks pos xs ++ xorFrom ks (pos + xs.length) ys := by
  induction xs generalizing pos with
  | nil => simp [xorFrom]
  | cons x xs ih =>
    have e : pos + 1 + xs.length = pos + (xs.length + 1) := by omega
    simp only [List.cons_append, xorFrom, List.length_cons, List.cons.injEq, true_and]
    have h := ih (pos + 1)
    rw [e] at h
    exact h

theorem xorFrom_xorFrom (ks : Nat → Byte) (pos : Nat) (bs : Bytes) :
    xorFrom ks pos (xorFrom ks pos bs) = bs := by
  induction bs generalizing pos with
  | nil => rfl
  | cons b bs ih =>
    simp only [xorFrom, ih]
    rw [BitVec.xor_assoc, BitVec.xor_self, BitVec.xor_zero]

/-! ## The chunk loops -/

theorem ctrEncryptLoop_eq_aux (n : Nat) :
    ∀ (s : CTRStream) (rbuf obuf : Bytes), rbuf.length ≤ n →
      ctrEncryptLoop s rbuf obuf = obuf ++ xorFrom s.keystream s.pos rbuf := by
  induction n with
  | zero =>
    intro s rbuf obuf h
    have : rbuf = [] := List.length_eq_zero.mp (by omega)
    subst this
    unfold ctrEncryptLoop
    simp [bufferRead, xorFrom]
  | succ n ih =>
    intro s rbuf obuf h
    cases rbuf with
    | nil =>
      unfold ctrEncryptLoop
      simp [bufferRead, xorFrom]
    | cons b bs =>
      unfold ctrEncryptLoop
      simp only [bufferRead]
      have hpos : (List.take 1024 (b :: bs)).length > 0 := by simp
      simp only [hpos, if_true, List.take_length, CTRStream.XORKeyStream]
      rw [dif_neg (by simp)]
      rw [ih _ _ _ (by simp at h ⊢; omega)]
      simp only [List.append_assoc]
      rw [← xorFrom_append, List.take_append_drop]

/-- The chunk loop of `CTR_encrypt` appends to `obuf` the input XORed with the keystream from
the stream's position on. -/
theorem ctrEncryptLoop_eq (s : CTRStream) (rbuf obuf : Bytes) :
    ctrEncryptLoop s rbuf obuf = obuf ++ xorFrom s.keystream s.pos rbuf :=
  ctrEncryptLoop_eq_aux rbuf.length s rbuf obuf (Nat.le_refl _)

theorem take_chunk_append (l : Bytes) (m c : Nat) :
    (l.take c).take (min (l.take c).length m) ++ (l.drop c).take (m - min (l.take c).length m)
      = l.take m := by
  by_cases h1 : m ≤ (l.take c).length
  · have hc : m ≤ c := by
      have := List.length_take_le c l
      omega
    rw [Nat.min_eq_right h1, Nat.sub_self, List.take_take, Nat.min_eq_left hc]
    simp
  · have h2 : (l.take c).length ≤ m := by omega
    rw [Nat.min_eq_left h2, List.take_length]
    by_cases h3 : c ≤ l.length
    · have e : (l.take c).length = c := by simp; omega
      rw [e]
      have e4 : m = c + (m - c) := by omega
      conv_rhs => rw [e4, List.take_add]
    · have e : l.take c = l := List.take_of_length_le (by omega)
      rw [e] at h2
      rw [e, List.drop_of_length_le (by omega), List.take_of_length_le h2]
      simp

theorem ctrDecryptLoop_eq_aux (n : Nat) :
    ∀ (s : CTRStream) (m : Nat) (rbuf obuf : Bytes), rbuf.length ≤ n →
      ctrDecryptLoop s (m : Int) rbuf obuf
        = .ok (obuf ++ xorFrom s.keystream s.pos (rbuf.take m)) := by
  induction n with
  | zero =>
    intro s m rbuf obuf h
    have : rbuf = [] := List.length_eq_zero.mp (by omega)
    subst this
    unfold ctrDecryptLoop
    simp [bufferRead, xorFrom]
  | succ n ih =>
    intro s m rbuf obuf h
    cases rbuf with
    | nil =>
      unfold ctrDecryptLoop
      simp [bufferRead, xorFrom]
    | cons b bs =>
      unfold ctrDecryptLoop
      simp only [bufferRead]
      generalize hchunk : List.take 1024 (b :: bs) = chunk
      have hpos : (chunk.length : Int) > 0 := by
        have : chunk.length = min 1024 (bs.length + 1) := by
          rw [← hchunk, List.length_take, List.length_cons]
        omega
      rw [if_pos hpos]
      have hmin : (if (chunk.length : Int) > (m : Int) then (m : Int)
          else (chunk.length : Int)) = ((min chunk.length m : Nat) : Int) := by
        split <;> omega
      simp only [hmin]
      rw [show (0 : Int) = ((0 : Nat) : Int) from rfl,
        sliceExpr_of_le _ 0 _ (Nat.zero_le _) (Nat.min_le_left _ _)]
      simp only [List.drop_zero, Nat.sub_zero, CTRStream.XORKeyStream]
      rw [dif_neg (by simp)]
      have hsub : ((m : Int) - ((min chunk.length m : Nat) : Int))
          = ((m - min chunk.length m : Nat) : Int) := by omega
      rw [hsub, ih _ _ _ _ (by simp at h ⊢; omega)]
      simp only [List.append_assoc]
      rw [← xorFrom_append, ← hchunk, take_chunk_append]

/-- The chunk loop of `CTR_decrypt`, started with `lenMsg = m ≥ 0`, returns: it appends to
`obuf` the first `m` bytes of the buffer XORed with the keystream from the stream's position
on, and nothing of what follows them. -/
theorem ctrDecryptLoop_eq (s : CTRStream) (m : Nat) (rbuf obuf : Bytes) :
    ctrDecryptLoop s (m : Int) rbuf obuf
      = .ok (obuf ++ xorFrom s.keystream s.pos (rbuf.take m)) :=
  ctrDecryptLoop_eq_aux rbuf.length s m rbuf obuf (Nat.le_refl _)

/-! ## Envelopes -/

theorem randRead_length (g : Rand) (n : Nat) : (randRead g n).1.length = n := by
  simp [randRead]

theorem aesNewCipher_of_length (key : Bytes) (h : key.length = 32) :
    aesNewCipher key = .ok ⟨key⟩ := by
  simp [aesNewCipher, h]

theorem slice_salt (c n s : Bytes) (lenSalt : Nat) (hs : s.length = lenSalt) :
    sliceExpr (c ++ n ++ s) (((c ++ n ++ s).length : Int) - lenSalt) ((c ++ n ++ s).length : Int)
      = .ok s := by
  have e : (((c ++ n ++ s).length : Int) - lenSalt) = ((c.length + n.length : Nat) : Int) := by
    simp only [List.length_append]; omega
  have hd : (c ++ n ++ s).drop (c.length + n.length) = s := by
    rw [show c.length + n.length = (c ++ n).length by simp]
    exact List.drop_left _ _
  rw [e, sliceExpr_of_le _ _ _ (by simp only [List.length_append]; omega) (Nat.le_refl _), hd,
    List.take_of_length_le (by simp only [List.length_append]; omega)]

theorem slice_nonce (c n s : Bytes) (lenSalt k : Nat) (hn : n.length = k)
    (hs : s.length = lenSalt) :
    sliceExpr (c ++ n ++ s) (((c ++ n ++ s).length : Int) - k - lenSalt)
      (((c ++ n ++ s).length : Int) - lenSalt) = .ok n := by
  have e1 : (((c ++ n ++ s).length : Int) - k - lenSalt) = ((c.length : Nat) : Int) := by
    simp only [List.length_append]; omega
  have e2 : (((c ++ n ++ s).length : Int) - lenSalt) = ((c.length + n.length : Nat) : Int) := by
    simp only [List.length_append]; omega
  rw [e1, e2, sliceExpr_of_le _ _ _ (by omega) (by simp only [List.length_append]; omega)]
  rw [List.append_assoc, List.drop_left]
  simp

theorem slice_body (c n s : Bytes) (lenSalt k : Nat) (hn : n.length = k)
    (hs : s.length = lenSalt) :
    sliceExpr (c ++ n ++ s) 0 (((c ++ n ++ s).length : Int) - k - lenSalt) = .ok c := by
  have e1 : (((c ++ n ++ s).length : Int) - k - lenSalt) = ((c.length : Nat) : Int) := by
    simp only [List.length_append]; omega
  rw [e1, show (0 : Int) = ((0 : Nat) : Int) from rfl,
    sliceExpr_of_le _ _ _ (Nat.zero_le _) (by simp only [List.length_append]; omega)]
  simp [List.append_assoc]

/-- What `GCM_encrypt` returns when the derived key has 32 bytes: the sealed plaintext, the
nonce drawn and the salt drawn, in this order. -/
theorem GCM_encrypt_eq (L : Primitives) (lenSalt : Nat) (g : Rand) (P K : Bytes)
    (hkey : (L.kdf K (drawnSalt g lenSalt)).length = 32) :
    GCM_encrypt L lenSalt g P K
      = .ok (L.gcmSeal (L.kdf K (drawnSalt g lenSalt)) (drawnNonce g lenSalt lenNonce) P
            ++ drawnNonce g lenSalt lenNonce ++ drawnSalt g lenSalt) := by
  unfold drawnSalt at hkey
  simp only [GCM_encrypt, getKeySalt, aesNewCipher_of_length _ hkey, cipherNewGCM,
    AESBlock.BlockSize, gcmSealCall, randRead_length, if_true, bind, Except.bind, pure,
    Except.pure, List.nil_append, List.append_assoc, drawnSalt, drawnNonce]

/-- What `GCM_decrypt` does with an assembled envelope: it opens exactly the ciphertext part
under the key derived from exactly the salt part, with exactly the nonce part. -/
theorem GCM_decrypt_assembled (L : Primitives) (lenSalt : Nat) (g : Rand) (c n s K : Bytes)
    (hn : n.length = lenNonce) (hs : s.length = lenSalt) :
    GCM_decrypt L lenSalt g (c ++ n ++ s) K
      = (aesNewCipher (L.kdf K s)).bind (fun block =>
          match L.gcmOpen block.key n c with
          | some plaintext => .ok plaintext
          | none => .error .authentication) := by
  simp only [GCM_decrypt, slice_salt c n s lenSalt hs, slice_nonce c n s lenSalt lenNonce hn hs,
    slice_body c n s lenSalt lenNonce hn hs, getKeySalt, bind, Except.bind, pure, Except.pure,
    cipherNewGCM, AESBlock.BlockSize, gcmOpenCall, hn, if_true]
  cases aesNewCipher (L.kdf K s) with
  | error e => rfl
  | ok block =>
    simp only
    cases L.gcmOpen block.key n c <;> rfl

theorem slice_salt_general (data : Bytes) (lenSalt : Nat) (h : lenSalt ≤ data.length) :
    sliceExpr data ((data.length : Int) - lenSalt) (data.length : Int)
      = .ok (envelopeSalt lenSalt data) := by
  have e : ((data.length : Int) - lenSalt) = ((data.length - lenSalt : Nat) : Int) := by omega
  rw [e, sliceExpr_of_le _ _ _ (by omega) (Nat.le_refl _), envelopeSalt,
    List.take_of_length_le (by rw [List.length_drop])]

theorem slice_nonce_general (data : Bytes) (lenSalt k : Nat) (h : lenSalt + k ≤ data.length) :
    sliceExpr data ((data.length : Int) - k - lenSalt) ((data.length : Int) - lenSalt)
      = .ok (envelopeNonce lenSalt k data) := by
  have e1 : ((data.length : Int) - k - lenSalt) = ((data.length - lenSalt - k : Nat) : Int) := by
    omega
  have e2 : ((data.length : Int) - lenSalt) = ((data.length - lenSalt : Nat) : Int) := by omega
  rw [e1, e2, sliceExpr_of_le _ _ _ (by omega) (by omega), envelopeNonce]
  congr 2
  omega

theorem slice_body_general (data : Bytes) (lenSalt k : Nat) (h : lenSalt + k ≤ data.length) :
    sliceExpr data 0 ((data.length : Int) - k - lenSalt)
      = .ok (envelopeBody lenSalt k data) := by
  have e1 : ((data.length : Int) - k - lenSalt) = ((data.length - lenSalt - k : Nat) : Int) := by
    omega
  rw [e1, show (0 : Int) = ((0 : Nat) : Int) from rfl,
    sliceExpr_of_le _ _ _ (Nat.zero_le _) (by omega), envelopeBody]
  simp

/-- What `GCM_decrypt` does with any input that is long enough to hold the trailer. -/
theorem GCM_decrypt_eq (L : Primitives) (lenSalt : Nat) (g : Rand) (data K : Bytes)
    (h : lenSalt + lenNonce ≤ data.length) :
    GCM_decrypt L lenSalt g data K
      = (aesNewCipher (L.kdf K (envelopeSalt lenSalt data))).bind (fun block =>
          match L.gcmOpen block.key (envelopeNonce lenSalt lenNonce data)
              (envelopeBody lenSalt lenNonce data) with
          | some plaintext => .ok plaintext
          | none => .error .authentication) := by
  have hn : (envelopeNonce lenSalt lenNonce data).length = lenNonce := by
    simp only [envelopeNonce, List.length_take, List.length_drop]; omega
  simp only [GCM_decrypt, slice_salt_general data lenSalt (by omega),
    slice_nonce_general data lenSalt lenNonce h, slice_body_general data lenSalt lenNonce h,
    getKeySalt, bind, Except.bind, pure, Except.pure, cipherNewGCM, AESBlock.BlockSize,
    gcmOpenCall, hn, if_true]
  cases aesNewCipher (L.kdf K (envelopeSalt lenSalt data)) with
  | error e => rfl
  | ok block =>
    simp only
    cases L.gcmOpen block.key (envelopeNonce lenSalt lenNonce data)
      (envelopeBody lenSalt lenNonce data) <;> rfl

/-- On an input too short to hold nonce and salt, `GCM_decrypt` panics in a slice expression. -/
theorem GCM_decrypt_short (L : Primitives) (lenSalt : Nat) (g : Rand) (data K : Bytes)
    (h : data.length < lenSalt + lenNonce) :
    GCM_decrypt L lenSalt g data K = .error .sliceBounds := by
  by_cases h1 : data.length < lenSalt
  · simp only [GCM_decrypt, sliceExpr_of_neg data _ _ (show (data.length : Int) - lenSalt < 0 by
      omega), bind, Except.bind]
  · simp only [GCM_decrypt, slice_salt_general data lenSalt (by omega),
      sliceExpr_of_neg data _ ((data.length : Int) - lenSalt)
        (show (data.length : Int) - lenNonce - lenSalt < 0 by omega), bind, Except.bind]

/-- On an input too short to hold IV and salt, `CTR_decrypt` panics: in a slice expression, or
before the IV is sliced in `aes.NewCipher` when the derived key has not an AES key size. -/
theorem CTR_decrypt_short (L : Primitives) (lenSalt : Nat) (g : Rand) (data K : Bytes)
    (h : data.length < lenSalt + 16) :
    CTR_decrypt L lenSalt g data K = .error .sliceBounds ∨
      CTR_decrypt L lenSalt g data K = .error .keySize := by
  by_cases h1 : data.length < lenSalt
  · left
    simp only [CTR_decrypt, sliceExpr_of_neg data _ _ (show (data.length : Int) - lenSalt < 0 by
      omega), bind, Except.bind]
  · simp only [CTR_decrypt, slice_salt_general data lenSalt (by omega), getKeySalt, bind,
      Except.bind]
    cases hc : aesNewCipher (L.kdf K (envelopeSalt lenSalt data)) with
    | error e =>
      right
      have he : e = .keySize := by
        unfold aesNewCipher at hc
        split at hc
        · cases hc
        · exact (Except.error.inj hc).symm
      rw [he]
    | ok block =>
      left
      simp only [AESBlock.BlockSize]
      rw [sliceExpr_of_neg data _ _ (by push_cast; omega)]

/-! ## The stream mode -/

theorem xorFrom_eq_zipWith (ks : Nat → Byte) (pos : Nat) (data : Bytes) :
    xorFrom ks pos data = (List.range' pos data.length).zipWith (fun i b => b ^^^ ks i) data := by
  induction data generalizing pos with
  | nil => simp [xorFrom]
  | cons b bs ih => simp [xorFrom, ih, List.range'_succ]

/-- The running transform from position 0 is the one-shot transform of spec 4.3. -/
theorem xorFrom_eq_oneShot (L : Primitives) (key iv data : Bytes) :
    xorFrom (L.ctrKeystream key iv) 0 data = xorKeystreamOneShot L key iv data := by
  rw [xorFrom_eq_zipWith, xorKeystreamOneShot, List.range_eq_range']

/-- What `CTR_encrypt` returns when the derived key has 32 bytes. -/
theorem CTR_encrypt_eq (L : Primitives) (lenSalt : Nat) (g : Rand) (P K : Bytes)
    (hkey : (L.kdf K (drawnSalt g lenSalt)).length = 32) :
    CTR_encrypt L lenSalt g P K
      = .ok (xorFrom (L.ctrKeystream (L.kdf K (drawnSalt g lenSalt)) (drawnNonce g lenSalt 16)) 0 P
            ++ drawnNonce g lenSalt 16 ++ drawnSalt g lenSalt) := by
  unfold drawnSalt at hkey
  simp only [CTR_encrypt, getKeySalt, aesNewCipher_of_length _ hkey, cipherNewCTR,
    AESBlock.BlockSize, randRead_length, if_true, bind, Except.bind, pure, Except.pure,
    ctrEncryptLoop_eq, List.nil_append, List.append_assoc, drawnSalt, drawnNonce]

/-- What `CTR_decrypt` does with any input that is long enough to hold the trailer. -/
theorem CTR_decrypt_eq (L : Primitives) (lenSalt : Nat) (g : Rand) (data K : Bytes)
    (h : lenSalt + 16 ≤ data.length) :
    CTR_decrypt L lenSalt g data K
      = (aesNewCipher (L.kdf K (envelopeSalt lenSalt data))).bind (fun block =>
          .ok (xorFrom (L.ctrKeystream block.key (envelopeNonce lenSalt 16 data)) 0
            (envelopeBody lenSalt 16 data))) := by
  have hn : (envelopeNonce lenSalt 16 data).length = 16 := by
    simp only [envelopeNonce, List.length_take, List.length_drop]; omega
  simp only [CTR_decrypt, slice_salt_general data lenSalt (by omega), getKeySalt, bind,
    Except.bind]
  cases aesNewCipher (L.kdf K (envelopeSalt lenSalt data)) with
  | error e => rfl
  | ok block =>
    have e : ((data.length : Int) - ((block.BlockSize : Nat) : Int) - lenSalt)
        = ((data.length - lenSalt - 16 : Nat) : Int) := by
      simp only [AESBlock.BlockSize]; omega
    have e16 : (((block.BlockSize : Nat) : Int)) = ((16 : Nat) : Int) := rfl
    simp only
    rw [e16, slice_nonce_general data lenSalt 16 h]
    simp only [cipherNewCTR, hn, AESBlock.BlockSize, if_true]
    rw [show ((data.length : Int) - ((16 : Nat) : Int) - (lenSalt : Int))
        = ((data.length - lenSalt - 16 : Nat) : Int) by omega, ctrDecryptLoop_eq]
    simp [envelopeBody]

/-! ## Bit flips -/

theorem flipBit_length (i : Nat) (data : Bytes) : (flipBit i data).length = data.length := by
  induction data generalizing i with
  | nil => rfl
  | cons b bs ih =>
    unfold flipBit
    split
    · rfl
    · simp [ih]

theorem flipBit_append (i : Nat) (xs ys : Bytes) (h : i < 8 * xs.length) :
    flipBit i (xs ++ ys) = flipBit i xs ++ ys := by
  induction xs generalizing i with
  | nil => simp at h
  | cons x xs ih =>
    simp only [List.cons_append, flipBit]
    split
    · rfl
    · have e := ih (i - 8) (by simp only [List.length_cons] at h; omega)
      exact congrArg (List.cons x) e

theorem xorFrom_flipBit (ks : Nat → Byte) (pos i : Nat) (data : Bytes) :
    xorFrom ks pos (flipBit i data) = flipBit i (xorFrom ks pos data) := by
  induction data generalizing pos i with
  | nil => rfl
  | cons b bs ih =>
    simp only [flipBit, xorFrom]
    split
    · simp only [xorFrom, List.cons.injEq, and_true]
      rw [BitVec.xor_assoc, BitVec.xor_assoc, BitVec.xor_comm (BitVec.ofNat 8 (2 ^ i))]
    · simp only [xorFrom, ih]

theorem getLsbD_flip (b : Byte) (i j : Nat) (hi : i < 8) (hj : j < 8) :
    (b ^^^ BitVec.ofNat 8 (2 ^ i)).getLsbD j = (b.getLsbD j != decide (j = i)) := by
  rw [BitVec.getLsbD_xor]
  have : (BitVec.ofNat 8 (2 ^ i)).getLsbD j = decide (j = i) := by
    interval_cases i <;> interval_cases j <;> rfl
  rw [this]

theorem testBitAt_flipBit (data : Bytes) (i j : Nat) (h : i < 8 * data.length) :
    testBitAt (flipBit i data) j = (testBitAt data j != decide (j = i)) := by
  induction data generalizing i j with
  | nil => simp at h
  | cons b bs ih =>
    simp only [flipBit]
    by_cases hi : i < 8
    · rw [if_pos hi]
      simp only [testBitAt]
      by_cases hj : j < 8
      · rw [if_pos hj, if_pos hj, getLsbD_flip b i j hi hj]
      · rw [if_neg hj, if_neg hj]
        have : decide (j = i) = false := by simp; omega
        rw [this]
        simp
    · rw [if_neg hi]
      simp only [testBitAt]
      by_cases hj : j < 8
      · rw [if_pos hj, if_pos hj]
        have : decide (j = i) = false := by simp; omega
        rw [this]
        simp
      · rw [if_neg hj, if_neg hj, ih (i - 8) (j - 8) (by simp only [List.length_cons] at h; omega)]
        have : decide (j - 8 = i - 8) = decide (j = i) := by
          apply decide_eq_decide.mpr
          omega
        rw [this]

/-! ## Parts of an assembled envelope -/

theorem envelopeSalt_assembled (c n s : Bytes) (lenSalt : Nat) (hs : s.length = lenSalt) :
    envelopeSalt lenSalt (c ++ n ++ s) = s := by
  unfold envelopeSalt
  have e : (c ++ n ++ s).length - lenSalt = (c ++ n).length := by
    simp only [List.length_append]; omega
  rw [e]
  exact List.drop_left _ _

theorem envelopeNonce_assembled (c n s : Bytes) (lenSalt k : Nat) (hn : n.length = k)
    (hs : s.length = lenSalt) : envelopeNonce lenSalt k (c ++ n ++ s) = n := by
  unfold envelopeNonce
  have e : (c ++ n ++ s).length - lenSalt - k = c.length := by
    simp only [List.length_append]; omega
  rw [e, List.append_assoc, List.drop_left, ← hn]
  exact List.take_left _ _

theorem envelopeBody_assembled (c n s : Bytes) (lenSalt k : Nat) (hn : n.length = k)
    (hs : s.length = lenSalt) : envelopeBody lenSalt k (c ++ n ++ s) = c := by
  unfold envelopeBody
  have e : (c ++ n ++ s).length - lenSalt - k = c.length := by
    simp only [List.length_append]; omega
  rw [e, List.append_assoc]
  exact List.take_left _ _

/-- What `CTR_decrypt` does with an assembled envelope: it transforms exactly the ciphertext
part, under the key derived from exactly the salt part, with exactly the IV part. -/
theorem CTR_decrypt_assembled (L : Primitives) (lenSalt : Nat) (g : Rand) (c iv s K : Bytes)
    (hiv : iv.length = 16) (hs : s.length = lenSalt) :
    CTR_decrypt L lenSalt g (c ++ iv ++ s) K
      = (aesNewCipher (L.kdf K s)).bind (fun block =>
          .ok (xorFrom (L.ctrKeystream block.key iv) 0 c)) := by
  rw [CTR_decrypt_eq L lenSalt g _ K (by simp only [List.length_append]; omega),
    envelopeSalt_assembled c iv s lenSalt hs, envelopeNonce_assembled c iv s lenSalt 16 hiv hs,
    envelopeBody_assembled c iv s lenSalt 16 hiv hs]

theorem drawnSalt_length (g : Rand) (lenSalt : Nat) : (drawnSalt g lenSalt).length = lenSalt :=
  randRead_length g lenSalt

theorem drawnNonce_length (g : Rand) (lenSalt k : Nat) : (drawnNonce g lenSalt k).length = k :=
  randRead_length _ k

/-! ## Facts about the small instance -/

theorem toyKdf_length (passphrase salt : Bytes) : (toyKdf passphrase salt).length = 32 := by
  simp [toyKdf]

theorem toyTag_length (key nonce plaintext : Bytes) : (toyTag key nonce plaintext).length = 16 := by
  simp [toyTag]

theorem toySeal_length (key nonce plaintext : Bytes) :
    (toySeal key nonce plaintext).length = plaintext.length + 16 := by
  simp [toySeal, toyTag_length, xorFrom_length]

theorem toyOpen_toySeal (key nonce plaintext : Bytes) :
    toyOpen key nonce (toySeal key nonce plaintext) = some plaintext := by
  have hl : (xorFrom (toyKeystream key nonce) 0 plaintext).length = plaintext.length :=
    xorFrom_length _ _ _
  have e : (toySeal key nonce plaintext).length - 16
      = (xorFrom (toyKeystream key nonce) 0 plaintext).length := by
    rw [toySeal_length, hl]; omega
  unfold toyOpen
  rw [if_pos (by rw [toySeal_length]; omega), e]
  simp only [toySeal, List.take_left, List.drop_left, xorFrom_xorFrom, if_true]

theorem toy_kdf_length (K salt : Bytes) : (toy.kdf K salt).length = 32 := toyKdf_length K salt

theorem toy_seal_length (key nonce P : Bytes) :
    (toy.gcmSeal key nonce P).length = P.length + gcmTagSize := toySeal_length key nonce P

theorem toy_open_seal (key nonce P : Bytes) :
    toy.gcmOpen key nonce (toy.gcmSeal key nonce P) = some P := toyOpen_toySeal key nonce P

theorem toy_pub_size (e : Nat) : (⟨toyModulus, e⟩ : RSAPublicKey).Size = 256 := by
  show (Nat.size (2 ^ 2047) + 7) / 8 = 256
  rw [Nat.size_pow]

theorem toy_oaep_inverse (pub : RSAPublicKey) (pri : RSAPrivateKey) (h : pri.D = pub.E)
    (seed msg : Bytes) (hlen : msg.length + 2 * hashLen + 2 ≤ pub.Size) :
    ∃ c, toy.encryptOAEP pub seed msg = some c ∧ toy.decryptOAEP pri c = some msg := by
  show ∃ c, toyEncryptOAEP pub seed msg = some c ∧ toyDecryptOAEP pri c = some msg
  refine ⟨msg.map (· ^^^ BitVec.ofNat 8 pub.E), ?_, ?_⟩
  · simp [toyEncryptOAEP, hlen]
  · simp only [toyDecryptOAEP, h, List.map_map, Option.some.injEq]
    have : ((fun x : Byte => x ^^^ BitVec.ofNat 8 pub.E) ∘ fun x => x ^^^ BitVec.ofNat 8 pub.E)
        = id := by
      funext x
      simp only [Function.comp, id]
      rw [BitVec.xor_assoc, BitVec.xor_self, BitVec.xor_zero]
    rw [this, List.map_id]

/-! ## The claims -/

/-- C1. AEAD round trip: for every plaintext `P`, passphrase `K` and randomness source (hence
every salt and nonce drawn), when the derived key has the 32 bytes of spec 4.1 and `Open`
inverts `Seal` under that key and nonce, `GCM_encrypt` returns an envelope and `GCM_decrypt` of
that envelope under `K` returns exactly `P`. -/
theorem GCM_round_trip (L : Primitives) (lenSalt : Nat) (g g' : Rand) (P K : Bytes)
    (hkey : (L.kdf K (drawnSalt g lenSalt)).length = 32)
    (hopen : L.gcmOpen (L.kdf K (drawnSalt g lenSalt)) (drawnNonce g lenSalt lenNonce)
        (L.gcmSeal (L.kdf K (drawnSalt g lenSalt)) (drawnNonce g lenSalt lenNonce) P) = some P) :
    ∃ envelope, GCM_encrypt L lenSalt g P K = .ok envelope ∧
      GCM_decrypt L lenSalt g' envelope K = .ok P := by
  refine ⟨_, GCM_encrypt_eq L lenSalt g P K hkey, ?_⟩
  rw [GCM_decrypt_assembled L lenSalt g' _ _ _ K (drawnNonce_length g lenSalt lenNonce)
    (drawnSalt_length g lenSalt), aesNewCipher_of_length _ hkey]
  simp only [Except.bind, hopen]

theorem GCM_round_trip_witness :
    (toy.kdf (asciiBytes "correct horse") (drawnSalt toyRand 32)).length = 32 ∧
      ∃ envelope,
        GCM_encrypt toy 32 toyRand (asciiBytes "attack at dawn") (asciiBytes "correct horse")
          = .ok envelope ∧
        GCM_decrypt toy 32 toyRand envelope (asciiBytes "correct horse")
          = .ok (asciiBytes "attack at dawn") :=
  ⟨toy_kdf_length _ _,
    GCM_round_trip toy 32 toyRand toyRand (asciiBytes "attack at dawn")
      (asciiBytes "correct horse") (toy_kdf_length _ _) (toy_open_seal _ _ _)⟩

/-- C3. `GCM_decrypt` returns a buffer exactly when the input holds a trailer, the re-derived
key is an AES key and `Open` of the ciphertext part under that key and the recovered nonce
succeeds, and the buffer is then `Open`'s plaintext; when `Open` fails, `GCM_decrypt` fails and
returns no buffer. -/
theorem GCM_decrypt_releases_only_opened_plaintext (L : Primitives) (lenSalt : Nat) (g : Rand)
    (data K : Bytes) :
    (∀ p, GCM_decrypt L lenSalt g data K = .ok p ↔
      (lenSalt + lenNonce ≤ data.length ∧
        ((L.kdf K (envelopeSalt lenSalt data)).length = 16 ∨
          (L.kdf K (envelopeSalt lenSalt data)).length = 24 ∨
          (L.kdf K (envelopeSalt lenSalt data)).length = 32) ∧
        L.gcmOpen (L.kdf K (envelopeSalt lenSalt data)) (envelopeNonce lenSalt lenNonce data)
          (envelopeBody lenSalt lenNonce data) = some p)) ∧
    (L.gcmOpen (L.kdf K (envelopeSalt lenSalt data)) (envelopeNonce lenSalt lenNonce data)
        (envelopeBody lenSalt lenNonce data) = none →
      ∃ e, GCM_decrypt L lenSalt g data K = .error e) := by
  by_cases h : lenSalt + lenNonce ≤ data.length
  · rw [GCM_decrypt_eq L lenSalt g data K h]
    unfold aesNewCipher
    by_cases hk : (L.kdf K (envelopeSalt lenSalt data)).length = 16 ∨
        (L.kdf K (envelopeSalt lenSalt data)).length = 24 ∨
        (L.kdf K (envelopeSalt lenSalt data)).length = 32
    · rw [if_pos hk]
      simp only [Except.bind]
      cases ho : L.gcmOpen (L.kdf K (envelopeSalt lenSalt data))
          (envelopeNonce lenSalt lenNonce data) (envelopeBody lenSalt lenNonce data) with
      | none => simp [h, hk]
      | some q => simp [h, hk]
    · rw [if_neg hk]
      simp [Except.bind, h, hk]
  · rw [GCM_decrypt_short L lenSalt g data K (by omega)]
    simp [h]

set_option maxRecDepth 100000 in
theorem GCM_decrypt_releases_only_opened_plaintext_witness :
    toy.gcmOpen (toy.kdf [1, 2] (envelopeSalt 4 (List.replicate 34 0)))
        (envelopeNonce 4 lenNonce (List.replicate 34 0))
        (envelopeBody 4 lenNonce (List.replicate 34 0)) = none ∧
      ∃ e, GCM_decrypt toy 4 toyRand (List.replicate 34 0) [1, 2] = .error e :=
  ⟨by decide,
    (GCM_decrypt_releases_only_opened_plaintext toy 4 toyRand (List.replicate 34 0) [1, 2]).2
      (by decide)⟩

/-- C5, the claim as stated fails: on the empty input (with a 32-byte salt) the first slice
expression of both decrypt functions, `data[lenData-lenSalt:]`, has the index -32, and both
calls end in the runtime panic for slice bounds out of range, not in a typed error result. -/
theorem decrypt_empty_slices_out_of_range :
    sliceExpr ([] : Bytes) ((([] : Bytes).length : Int) - ((32 : Nat) : Int))
        (([] : Bytes).length : Int) = .error .sliceBounds ∧
      GCM_decrypt toy 32 toyRand [] (asciiBytes "correct horse") = .error .sliceBounds ∧
      CTR_decrypt toy 32 toyRand [] (asciiBytes "correct horse") = .error .sliceBounds := by
  decide

/-- C5, amended. For every input shorter than the trailer of its mode (`SALT_LEN + 12` bytes for
`GCM_decrypt`, `SALT_LEN + 16` bytes for `CTR_decrypt`, the empty input included) the call
panics and returns no buffer: `GCM_decrypt` in a slice expression; `CTR_decrypt` in a slice
expression or, before it slices the IV, in `aes.NewCipher`. -/
theorem decrypt_short_panics (L : Primitives) (lenSalt : Nat) (g : Rand)
    (dataGCM dataCTR K : Bytes) (hG : dataGCM.length < lenSalt + lenNonce)
    (hC : dataCTR.length < lenSalt + 16) :
    GCM_decrypt L lenSalt g dataGCM K = .error .sliceBounds ∧
      (CTR_decrypt L lenSalt g dataCTR K = .error .sliceBounds ∨
        CTR_decrypt L lenSalt g dataCTR K = .error .keySize) ∧
      (∀ p, GCM_decrypt L lenSalt g dataGCM K ≠ .ok p) ∧
      (∀ p, CTR_decrypt L lenSalt g dataCTR K ≠ .ok p) := by
  have h1 := GCM_decrypt_short L lenSalt g dataGCM K hG
  have h2 := CTR_decrypt_short L lenSalt g dataCTR K hC
  refine ⟨h1, h2, ?_, ?_⟩
  · intro p hp
    rw [h1] at hp
    cases hp
  · intro p hp
    rcases h2 with h2 | h2 <;> rw [h2] at hp <;> cases hp

theorem decrypt_short_panics_witness :
    ([1, 2, 3, 4, 5] : Bytes).length < 32 + lenNonce ∧
      (List.replicate 47 (0 : Byte)).length < 32 + 16 ∧
      GCM_decrypt toy 32 toyRand [1, 2, 3, 4, 5] (asciiBytes "correct horse")
        = .error .sliceBounds ∧
      (CTR_decrypt toy 32 toyRand (List.replicate 47 0) (asciiBytes "correct horse")
          = .error .sliceBounds ∨
        CTR_decrypt toy 32 toyRand (List.replicate 47 0) (asciiBytes "correct horse")
          = .error .keySize) ∧
      (∀ p, GCM_decrypt toy 32 toyRand [1, 2, 3, 4, 5] (asciiBytes "correct horse") ≠ .ok p) ∧
      (∀ p, CTR_decrypt toy 32 toyRand (List.replicate 47 0) (asciiBytes "correct horse")
        ≠ .ok p) :=
  ⟨by decide, by decide,
    decrypt_short_panics toy 32 toyRand [1, 2, 3, 4, 5] (List.replicate 47 0)
      (asciiBytes "correct horse") (by decide) (by decide)⟩

/-- C6. Envelope parse stability: for every ciphertext `c`, every 12-byte nonce `n`, every
16-byte IV `iv` and every salt `s` of `SALT_LEN` bytes, the slice expressions of `GCM_decrypt`
on `c ++ n ++ s` yield the salt `s`, the nonce `n` and the ciphertext `c`, and `GCM_decrypt`
opens `c` under the key of `s` with `n`; the slice expressions of `CTR_decrypt` on
`c ++ iv ++ s` yield the salt `s` and the IV `iv`, its loop transforms the prefix `c` and
nothing else, and `CTR_decrypt` transforms `c` under the key of `s` with `iv`. -/
theorem envelope_parse_stable (L : Primitives) (lenSalt : Nat) (g : Rand)
    (c n iv s K : Bytes) (hn : n.length = lenNonce) (hiv : iv.length = 16)
    (hs : s.length = lenSalt) :
    (sliceExpr (c ++ n ++ s) (((c ++ n ++ s).length : Int) - lenSalt)
          ((c ++ n ++ s).length : Int) = .ok s ∧
        sliceExpr (c ++ n ++ s) (((c ++ n ++ s).length : Int) - lenNonce - lenSalt)
          (((c ++ n ++ s).length : Int) - lenSalt) = .ok n ∧
        sliceExpr (c ++ n ++ s) 0 (((c ++ n ++ s).length : Int) - lenNonce - lenSalt) = .ok c ∧
        GCM_decrypt L lenSalt g (c ++ n ++ s) K
          = (aesNewCipher (L.kdf K s)).bind (fun block =>
              match L.gcmOpen block.key n c with
              | some plaintext => .ok plaintext
              | none => .error .authentication)) ∧
      (sliceExpr (c ++ iv ++ s) (((c ++ iv ++ s).length : Int) - lenSalt)
          ((c ++ iv ++ s).length : Int) = .ok s ∧
        sliceExpr (c ++ iv ++ s) (((c ++ iv ++ s).length : Int) - ((16 : Nat) : Int) - lenSalt)
          (((c ++ iv ++ s).length : Int) - lenSalt) = .ok iv ∧
        (∀ stream : CTRStream,
          ctrDecryptLoop stream (((c ++ iv ++ s).length : Int) - ((16 : Nat) : Int) - lenSalt)
            (c ++ iv ++ s) [] = .ok (xorFrom stream.keystream stream.pos c)) ∧
        CTR_decrypt L lenSalt g (c ++ iv ++ s) K
          = (aesNewCipher (L.kdf K s)).bind (fun block =>
              .ok (xorFrom (L.ctrKeystream block.key iv) 0 c))) := by
  refine ⟨⟨slice_salt c n s lenSalt hs, slice_nonce c n s lenSalt lenNonce hn hs,
    slice_body c n s lenSalt lenNonce hn hs, GCM_decrypt_assembled L lenSalt g c n s K hn hs⟩,
    slice_salt c iv s lenSalt hs, slice_nonce c iv s lenSalt 16 hiv hs, ?_,
    CTR_decrypt_assembled L lenSalt g c iv s K hiv hs⟩
  intro stream
  have e : (((c ++ iv ++ s).length : Int) - ((16 : Nat) : Int) - lenSalt)
      = ((c.length : Nat) : Int) := by
    simp only [List.length_append]; omega
  rw [e, ctrDecryptLoop_eq, List.append_assoc, List.take_left]
  rfl

theorem envelope_parse_stable_witness :
    (sliceExpr (asciiBytes "body" ++ asciiBytes "nonce-nonce-" ++ asciiBytes "salt")
          (((asciiBytes "body" ++ asciiBytes "nonce-nonce-" ++ asciiBytes "salt").length : Int)
            - lenNonce - (4 : Nat))
          (((asciiBytes "body" ++ asciiBytes "nonce-nonce-" ++ asciiBytes "salt").length : Int)
            - (4 : Nat))
        = .ok (asciiBytes "nonce-nonce-")) ∧
      CTR_decrypt toy 4 toyRand
          (asciiBytes "salt" ++ asciiBytes "iv-iv-iv-iv-iv-i" ++ asciiBytes "salt")
          (asciiBytes "correct horse")
        = (aesNewCipher (toy.kdf (asciiBytes "correct horse") (asciiBytes "salt"))).bind
            (fun block => .ok (xorFrom (toy.ctrKeystream block.key (asciiBytes "iv-iv-iv-iv-iv-i"))
              0 (asciiBytes "salt"))) :=
  have h := envelope_parse_stable toy 4 toyRand (asciiBytes "body") (asciiBytes "nonce-nonce-")
    (asciiBytes "iv-iv-iv-iv-iv-i") (asciiBytes "salt") (asciiBytes "correct horse")
    (by decide) (by decide) (by decide)
  have h2 := envelope_parse_stable toy 4 toyRand (asciiBytes "salt")
    (asciiBytes "nonce-nonce-") (asciiBytes "iv-iv-iv-iv-iv-i") (asciiBytes "salt")
    (asciiBytes "correct horse") (by decide) (by decide) (by decide)
  ⟨h.1.2.1, h2.2.2.2.2⟩

/-- C7. AEAD envelope shape: when the derived key has the 32 bytes of spec 4.1 and `Seal` adds
its 16-byte tag, `GCM_encrypt(P, K)` returns exactly the sealed plaintext (`len(P) + 16`
bytes, sealed under the key derived from the salt drawn) followed by the 12-byte nonce
followed by the `SALT_LEN`-byte salt, `len(P) + 16 + 12 + SALT_LEN` bytes in all. -/
theorem GCM_envelope_shape (L : Primitives) (lenSalt : Nat) (g : Rand) (P K : Bytes)
    (hkey : (L.kdf K (drawnSalt g lenSalt)).length = 32)
    (hseal : (L.gcmSeal (L.kdf K (drawnSalt g lenSalt)) (drawnNonce g lenSalt lenNonce) P).length
      = P.length + gcmTagSize) :
    ∃ envelope sealed nonce salt,
      GCM_encrypt L lenSalt g P K = .ok envelope ∧
      envelope = sealed ++ nonce ++ salt ∧
      sealed = L.gcmSeal (L.kdf K salt) nonce P ∧
      sealed.length = P.length + 16 ∧ nonce.length = 12 ∧ salt.length = lenSalt ∧
      envelope.length = P.length + 16 + 12 + lenSalt := by
  refine ⟨_, _, drawnNonce g lenSalt lenNonce, drawnSalt g lenSalt,
    GCM_encrypt_eq L lenSalt g P K hkey, rfl, rfl, hseal, drawnNonce_length g lenSalt lenNonce,
    drawnSalt_length g lenSalt, ?_⟩
  simp only [List.length_append, hseal, drawnNonce_length, drawnSalt_length]
  rfl

theorem GCM_envelope_shape_witness :
    ∃ envelope sealed nonce salt,
      GCM_encrypt toy 32 toyRand (asciiBytes "attack at dawn") (asciiBytes "correct horse")
        = .ok envelope ∧
      envelope = sealed ++ nonce ++ salt ∧
      sealed = toy.gcmSeal (toy.kdf (asciiBytes "correct horse") salt) nonce
        (asciiBytes "attack at dawn") ∧
      sealed.length = (asciiBytes "attack at dawn").length + 16 ∧ nonce.length = 12 ∧
      salt.length = 32 ∧
      envelope.length = (asciiBytes "attack at dawn").length + 16 + 12 + 32 :=
  GCM_envelope_shape toy 32 toyRand (asciiBytes "attack at dawn") (asciiBytes "correct horse")
    (toy_kdf_length _ _) (toy_seal_length _ _ _)

/-- C2. Stream round trip: for every plaintext `P` of any length, every passphrase `K` and
every randomness source, when the derived key has the 32 bytes of spec 4.1, `CTR_encrypt`
returns an envelope and `CTR_decrypt` of that envelope under `K` returns exactly `P`. -/
theorem CTR_round_trip (L : Primitives) (lenSalt : Nat) (g g' : Rand) (P K : Bytes)
    (hkey : (L.kdf K (drawnSalt g lenSalt)).length = 32) :
    ∃ envelope, CTR_encrypt L lenSalt g P K = .ok envelope ∧
      CTR_decrypt L lenSalt g' envelope K = .ok P := by
  refine ⟨_, CTR_encrypt_eq L lenSalt g P K hkey, ?_⟩
  rw [CTR_decrypt_assembled L lenSalt g' _ _ _ K (drawnNonce_length g lenSalt 16)
    (drawnSalt_length g lenSalt), aesNewCipher_of_length _ hkey]
  simp only [Except.bind, xorFrom_xorFrom]

theorem CTR_round_trip_witness :
    (toy.kdf (asciiBytes "correct horse") (drawnSalt toyRand 32)).length = 32 ∧
      ∃ envelope,
        CTR_encrypt toy 32 toyRand (List.replicate 2048 0x41) (asciiBytes "correct horse")
          = .ok envelope ∧
        CTR_decrypt toy 32 toyRand envelope (asciiBytes "correct horse")
          = .ok (List.replicate 2048 0x41) :=
  ⟨toy_kdf_length _ _,
    CTR_round_trip toy 32 toyRand toyRand (List.replicate 2048 0x41)
      (asciiBytes "correct horse") (toy_kdf_length _ _)⟩

/-- C4. Stream tamper non-detection: for every envelope `E = CTR_encrypt(P, K)` (the derived
key having the 32 bytes of spec 4.1) and every bit position `i` inside its ciphertext part, the
first `len(E) - 16 - SALT_LEN = len(P)` bytes, `CTR_decrypt` of `E` with bit `i` flipped returns
without error a plaintext of the length of `P` that is `P` with bit `i` flipped: it differs
from `P` in bit `i` and in no other bit. -/
theorem CTR_bit_flip_not_detected (L : Primitives) (lenSalt : Nat) (g g' : Rand)
    (P K : Bytes) (i : Nat) (hkey : (L.kdf K (drawnSalt g lenSalt)).length = 32)
    (hi : i < 8 * P.length) :
    ∃ E, CTR_encrypt L lenSalt g P K = .ok E ∧
      E.length - 16 - lenSalt = P.length ∧
      CTR_decrypt L lenSalt g' (flipBit i E) K = .ok (flipBit i P) ∧
      (flipBit i P).length = P.length ∧
      ∀ j, testBitAt (flipBit i P) j = (testBitAt P j != decide (j = i)) := by
  have hx : i < 8 * (xorFrom (L.ctrKeystream (L.kdf K (drawnSalt g lenSalt))
      (drawnNonce g lenSalt 16)) 0 P).length := by
    rw [xorFrom_length]; exact hi
  refine ⟨_, CTR_encrypt_eq L lenSalt g P K hkey, ?_, ?_, flipBit_length i P,
    fun j => testBitAt_flipBit P i j hi⟩
  · simp only [List.length_append, xorFrom_length, drawnNonce_length, drawnSalt_length]
    omega
  · rw [List.append_assoc, flipBit_append _ _ _ hx, ← List.append_assoc,
      CTR_decrypt_assembled L lenSalt g' _ _ _ K (drawnNonce_length g lenSalt 16)
        (drawnSalt_length g lenSalt), aesNewCipher_of_length _ hkey]
    simp only [Except.bind, xorFrom_flipBit, xorFrom_xorFrom]

theorem CTR_bit_flip_not_detected_witness :
    (toy.kdf (asciiBytes "correct horse") (drawnSalt toyRand 32)).length = 32 ∧
      9 < 8 * (asciiBytes "attack at dawn").length ∧
      ∃ E, CTR_encrypt toy 32 toyRand (asciiBytes "attack at dawn") (asciiBytes "correct horse")
          = .ok E ∧
        E.length - 16 - 32 = (asciiBytes "attack at dawn").length ∧
        CTR_decrypt toy 32 toyRand (flipBit 9 E) (asciiBytes "correct horse")
          = .ok (flipBit 9 (asciiBytes "attack at dawn")) ∧
        (flipBit 9 (asciiBytes "attack at dawn")).length = (asciiBytes "attack at dawn").length ∧
        ∀ j, testBitAt (flipBit 9 (asciiBytes "attack at dawn")) j
          = (testBitAt (asciiBytes "attack at dawn") j != decide (j = 9)) :=
  ⟨toy_kdf_length _ _, by decide,
    CTR_bit_flip_not_detected toy 32 toyRand toyRand (asciiBytes "attack at dawn")
      (asciiBytes "correct horse") 9 (toy_kdf_length _ _) (by decide)⟩

/-- C10. The chunked stream transform equals the one-shot transform. For every input the
message bytes written by the 1024-byte chunk loop of `CTR_encrypt` are the plaintext XORed
byte for byte with the first `len(plaintext)` bytes of the keystream of `(key, IV)`, and
`CTR_encrypt` returns them followed by IV and salt. For every envelope of at least
`16 + SALT_LEN` bytes `CTR_decrypt` returns exactly `len(envelope) - 16 - SALT_LEN` bytes: the
envelope's prefix of that length XORed with the keystream of the re-derived key and the
recovered IV, and no byte of the trailer. (Derived keys have the 32 bytes of spec 4.1.) -/
theorem CTR_chunked_eq_oneShot (L : Primitives) (lenSalt : Nat) (g g' : Rand)
    (P K envelope : Bytes) (hkeyE : (L.kdf K (drawnSalt g lenSalt)).length = 32)
    (hlen : 16 + lenSalt ≤ envelope.length)
    (hkeyD : (L.kdf K (envelopeSalt lenSalt envelope)).length = 32) :
    (∀ key iv, ctrEncryptLoop ⟨L.ctrKeystream key iv, 0⟩ P []
        = xorKeystreamOneShot L key iv P) ∧
      CTR_encrypt L lenSalt g P K
        = .ok (xorKeystreamOneShot L (L.kdf K (drawnSalt g lenSalt)) (drawnNonce g lenSalt 16) P
            ++ drawnNonce g lenSalt 16 ++ drawnSalt g lenSalt) ∧
      ∃ out, CTR_decrypt L lenSalt g' envelope K = .ok out ∧
        out.length = envelope.length - 16 - lenSalt ∧
        out = xorKeystreamOneShot L (L.kdf K (envelopeSalt lenSalt envelope))
          (envelopeNonce lenSalt 16 envelope) (envelope.take (envelope.length - 16 - lenSalt)) := by
  refine ⟨?_, ?_, ?_⟩
  · intro key iv
    rw [ctrEncryptLoop_eq, List.nil_append, xorFrom_eq_oneShot]
  · rw [CTR_encrypt_eq L lenSalt g P K hkeyE, xorFrom_eq_oneShot]
  · have hb : envelopeBody lenSalt 16 envelope
        = envelope.take (envelope.length - 16 - lenSalt) := by
      rw [envelopeBody, Nat.sub_right_comm]
    refine ⟨_, ?_, ?_, rfl⟩
    · rw [CTR_decrypt_eq L lenSalt g' envelope K (by omega), aesNewCipher_of_length _ hkeyD]
      simp only [Except.bind, xorFrom_eq_oneShot, hb]
    · rw [← xorFrom_eq_oneShot, xorFrom_length, List.length_take]
      omega

theorem CTR_chunked_eq_oneShot_witness :
    (toy.kdf (asciiBytes "correct horse") (drawnSalt toyRand 4)).length = 32 ∧
      16 + 4 ≤ (List.replicate 1050 (0x41 : Byte)).length ∧
      ∃ out, CTR_decrypt toy 4 toyRand (List.replicate 1050 0x41) (asciiBytes "correct horse")
          = .ok out ∧
        out.length = (List.replicate 1050 (0x41 : Byte)).length - 16 - 4 :=
  have h := CTR_chunked_eq_oneShot toy 4 toyRand toyRand (List.replicate 3000 0x41)
    (asciiBytes "correct horse") (List.replicate 1050 0x41) (toy_kdf_length _ _)
    (by rw [List.length_replicate]; decide) (toy_kdf_length _ _)
  ⟨toy_kdf_length _ _, by rw [List.length_replicate]; decide,
    h.2.2.elim (fun out ho => ⟨out, ho.1, ho.2.1⟩)⟩

/-- C8, the defect. A key input in which `pem.Decode` finds no PEM block makes `RSA_encrypt`
and `RSA_decrypt` dereference the nil block: a runtime panic, without the "Failed to parse"
outcome. A PKIX public key that is not an RSA key makes `RSA_encrypt` panic in the unchecked
type assertion. Only a PEM block whose body does not parse ends in the key-parse outcome. -/
theorem RSA_bad_key_outcomes (L : Primitives) (g : Rand) (M noPem otherPem badPem : Bytes)
    (derOther derBad : Bytes) (h1 : L.pemDecode noPem = none)
    (h2 : L.pemDecode otherPem = some derOther)
    (h3 : L.parsePKIXPublicKey derOther = some .other)
    (h4 : L.pemDecode badPem = some derBad) (h5 : L.parsePKIXPublicKey derBad = none)
    (h6 : L.parsePKCS1PrivateKey derBad = none) :
    RSA_encrypt L g M noPem = .error .nilDereference ∧
      RSA_decrypt L M noPem = .error .nilDereference ∧
      RSA_encrypt L g M otherPem = .error .typeAssertion ∧
      RSA_encrypt L g M badPem = .error .keyParse ∧
      RSA_decrypt L M badPem = .error .keyParse := by
  simp only [RSA_encrypt, RSA_decrypt, h1, h2, h3, h4, h5, h6, and_self]

theorem RSA_bad_key_outcomes_witness :
    RSA_encrypt toy toyRand (asciiBytes "attack at dawn") (asciiBytes "not a key")
        = .error .nilDereference ∧
      RSA_decrypt toy (asciiBytes "attack at dawn") (asciiBytes "not a key")
        = .error .nilDereference ∧
      RSA_encrypt toy toyRand (asciiBytes "attack at dawn") [0x2D, 0x31, 0x00]
        = .error .typeAssertion ∧
      RSA_encrypt toy toyRand (asciiBytes "attack at dawn") [0x2D, 0x00]
        = .error .keyParse ∧
      RSA_decrypt toy (asciiBytes "attack at dawn") [0x2D, 0x00] = .error .keyParse :=
  RSA_bad_key_outcomes toy toyRand (asciiBytes "attack at dawn") (asciiBytes "not a key")
    [0x2D, 0x31, 0x00] [0x2D, 0x00] [0x31, 0x00] [0x00] (by decide) (by decide) (by decide)
    (by decide) (by decide) (by decide)

/-- C9. Asymmetric round trip: for a public key given as PEM with a PKIX RSA body and a
private key given as PEM with a PKCS1 body that match (OAEP decryption under the private key
inverts OAEP encryption under the public key for every message within the OAEP bound), and
every plaintext `M` with `len(M) ≤ modulusBytes - 2*hashLen - 2`, `RSA_encrypt` returns a
ciphertext and `RSA_decrypt` of it returns exactly `M`. -/
theorem RSA_round_trip (L : Primitives) (g : Rand) (M pubKey priKey derPub derPri : Bytes)
    (pub : RSAPublicKey) (pri : RSAPrivateKey) (h1 : L.pemDecode pubKey = some derPub)
    (h2 : L.parsePKIXPublicKey derPub = some (.rsa pub))
    (h3 : L.pemDecode priKey = some derPri) (h4 : L.parsePKCS1PrivateKey derPri = some pri)
    (hpair : ∀ seed m, m.length + 2 * hashLen + 2 ≤ pub.Size →
      ∃ c, L.encryptOAEP pub seed m = some c ∧ L.decryptOAEP pri c = some m)
    (hM : M.length + 2 * hashLen + 2 ≤ pub.Size) :
    ∃ ciphertext, RSA_encrypt L g M pubKey = .ok ciphertext ∧
      RSA_decrypt L ciphertext priKey = .ok M := by
  obtain ⟨c, hc1, hc2⟩ := hpair (randRead g hashLen).1 M hM
  exact ⟨c, by simp only [RSA_encrypt, h1, h2, hc1], by simp only [RSA_decrypt, h3, h4, hc2]⟩

theorem RSA_round_trip_witness :
    (asciiBytes "attack at dawn").length + 2 * hashLen + 2
        ≤ (⟨toyModulus, 3⟩ : RSAPublicKey).Size ∧
      ∃ ciphertext,
        RSA_encrypt toy toyRand (asciiBytes "attack at dawn") [0x2D, 0x30, 3]
          = .ok ciphertext ∧
        RSA_decrypt toy ciphertext [0x2D, 0x30, 3, 3] = .ok (asciiBytes "attack at dawn") :=
  ⟨by rw [toy_pub_size]; decide,
    RSA_round_trip toy toyRand (asciiBytes "attack at dawn") [0x2D, 0x30, 3]
      [0x2D, 0x30, 3, 3] [0x30, 3] [0x30, 3, 3] ⟨toyModulus, 3⟩
      ⟨⟨toyModulus, 3⟩, 3⟩ rfl rfl rfl rfl
      (toy_oaep_inverse _ _ rfl) (by rw [toy_pub_size]; decide)⟩

end Gfc
